import Mathlib

/-!
Verification of the cursor-tab.nvim suggestion server (final iteration of
`cmd/server/main.go` together with `internal/suggestionstore/suggestionstore.go`).

The embedding models:
* the wire chunk (`StreamCppResponse` fields used by the server),
* the stream decoder `parseNextSuggestion`,
* the suggestion store (`Store`/`Get`/`Delete`),
* the orchestrator `handleNewSuggestion` (as `runRequest`) and the background
  chain materializer `storeRemainingSuggestions` (as `storeRemain`).

Go strings are modelled as `List Char`; the only byte-level operation the code
performs on suggestion text is comparing the first byte with `'\n'` and slicing
it off, which coincides with the character-level operation. A stream is a list
of already-received chunks plus the final condition reported by `stream.Err()`
after `Receive()` returns false: `none` models a nil or `io.EOF` error (clean
close) and `some msg` models a genuine transport error. The request context is
modelled as never cancelled (single-producer sequential run), and log output is
ignored except where it dereferences a possibly-nil pointer, which is modelled
as the `panicNil` outcome.
-/

namespace CursorTab

/-- Go `suggestionstore.RangeInfo`. -/
structure RangeInfo where
  startLine : Int
  startColumn : Int
  endLine : Int
  endColumn : Int
deriving Repr, DecidableEq

/-- Go `suggestionstore.Suggestion`; zero values of Go are the defaults. -/
structure Suggestion where
  text : List Char := []
  range : Option RangeInfo := none
  bindingID : List Char := []
  shouldRemoveLeadingEol : Bool := false
  nextSuggestionID : String := ""
deriving Repr, DecidableEq

/-- The part of the wire `RangeToReplace` the server reads. -/
structure WireRange where
  startLineNumber : Int
  endLineNumberInclusive : Int
deriving Repr, DecidableEq

/-- The fields of a `StreamCppResponse` chunk the server reads.  Absent
optional fields are `none`; Go's `Text` is a plain string whose zero value is
empty. -/
structure Chunk where
  text : List Char := []
  rangeToReplace : Option WireRange := none
  bindingId : Option (List Char) := none
  shouldRemoveLeadingEol : Option Bool := none
  doneEdit : Option Bool := none
  doneStream : Option Bool := none
  beginEdit : Option Bool := none
deriving Repr, DecidableEq

/-- The Go `p != nil && *p` test on an optional bool field. -/
def isTrue : Option Bool → Bool
  | some b => b
  | none => false

/-- The `resp.RangeToReplace != nil` branch of the decoder loop body: allocate
the in-progress suggestion if needed, overwrite its range (columns are
synthesized as 0 and the -1 end-of-line sentinel), and copy binding id and
remove-leading-eol flag when present. -/
def applyRange (cur : Option Suggestion) (c : Chunk) : Option Suggestion :=
  match c.rangeToReplace with
  | none => cur
  | some r =>
    let s0 : Suggestion := cur.getD {}
    let s1 := { s0 with range := some { startLine := r.startLineNumber, startColumn := 0,
                                        endLine := r.endLineNumberInclusive, endColumn := -1 } }
    let s2 := match c.bindingId with
      | some b => { s1 with bindingID := b }
      | none => s1
    match c.shouldRemoveLeadingEol with
    | some f => some { s2 with shouldRemoveLeadingEol := f }
    | none => some s2

/-- The `resp.Text != ""` branch of the decoder loop body. -/
def applyText (cur : Option Suggestion) (c : Chunk) : Option Suggestion :=
  if c.text = [] then cur
  else
    let s0 : Suggestion := cur.getD {}
    some { s0 with text := s0.text ++ c.text }

/-- One decoder loop iteration before the terminal-marker checks. -/
def feedChunk (cur : Option Suggestion) (c : Chunk) : Option Suggestion :=
  applyText (applyRange cur c) c

/-- The leading-newline stripping performed at a `DoneEdit` marker: with the
flag set and a nonempty text whose first byte is `'\n'`, drop that byte. -/
def stripIfNeeded (s : Suggestion) : Suggestion :=
  if s.shouldRemoveLeadingEol then
    match s.text with
    | c :: rest => if c = '\n' then { s with text := rest } else s
    | [] => s
  else s

/-- Result of one `parseNextSuggestion` call.  `panicNil` models the
nil-pointer dereference of `currentSuggestion` in the completion debug log
when a `DoneEdit` marker arrives with no in-progress suggestion. -/
inductive ParseOutcome where
  | ok : Option Suggestion → ParseOutcome
  | err : String → ParseOutcome
  | panicNil : ParseOutcome
deriving Repr, DecidableEq

/-- Function `parseNextSuggestion`: consume chunks until a `DoneEdit` (complete
suggestion) or `DoneStream` (end of stream, `ok none`); on exhaustion a
non-EOF transport error is propagated, otherwise the accumulated suggestion
(possibly `none`) is returned as a non-error.  Also returns the unconsumed
remainder of the stream. -/
def parseNextSuggestion : List Chunk → Option String → Option Suggestion →
    ParseOutcome × List Chunk
  | [], e, cur =>
    match e with
    | some msg => (ParseOutcome.err ("stream error: " ++ msg), [])
    | none => (ParseOutcome.ok cur, [])
  | c :: rest, e, cur =>
    let cur1 := feedChunk cur c
    if isTrue c.doneEdit then
      match cur1 with
      | none => (ParseOutcome.panicNil, rest)
      | some s => (ParseOutcome.ok (some (stripIfNeeded s)), rest)
    else if isTrue c.doneStream then
      (ParseOutcome.ok none, rest)
    else
      parseNextSuggestion rest e cur1

/-- A pure begin-marker chunk. -/
def beginChunk : Chunk := { beginEdit := some true }

/-- A pure done-edit marker chunk. -/
def doneEditChunk : Chunk := { doneEdit := some true }

/-- A pure done-stream marker chunk. -/
def doneStreamChunk : Chunk := { doneStream := some true }

/-- A chunk that carries no terminal marker (text fragments, range chunks,
begin markers). -/
def isPlainB (c : Chunk) : Bool := !isTrue c.doneEdit && !isTrue c.doneStream

/-- The suggestion store (`suggestionstore.Store`), a map from identifiers to
suggestions modelled as an association list whose most recent binding wins. -/
abbrev Store := List (String × Suggestion)

/-- Method `Store.Get`: map lookup, `none` when absent. -/
def Store.get (st : Store) (id : String) : Option Suggestion :=
  (st.find? fun p => p.1 == id).map Prod.snd

/-- Method `Store.Delete`: map deletion. -/
def Store.del (st : Store) (id : String) : Store :=
  st.filter fun p => !(p.1 == id)

/-- Method `Store.Store`: map insertion, overwriting any previous binding. -/
def Store.put (st : Store) (id : String) (s : Suggestion) : Store :=
  (id, s) :: Store.del st id

/-- Function `generateSuggestionID`, with the stream of `uuid.New()` draws
supplied as a function from draw index to uuid string. -/
def mkID (u : String) : String := "sugg_" ++ u

/-- An observable action of a request on the shared identifier/store state:
generation of a fresh suggestion identifier, or insertion of a suggestion
record into the store. -/
inductive Event where
  | genID : String → Event
  | putStore : String → Suggestion → Event
deriving Repr, DecidableEq

/-- Apply one event to the store (`genID` does not touch it). -/
def applyEvent (st : Store) : Event → Store
  | Event.genID _ => st
  | Event.putStore id s => Store.put st id s

/-- Apply a trace of events to the store in order. -/
def applyEvents (st : Store) (evs : List Event) : Store :=
  evs.foldl applyEvent st

/-- The JSON `SuggestionResponse` body; absent optional fields are the Go zero
values that `omitempty` drops. -/
structure WireResponse where
  suggestion : List Char := []
  error : String := ""
  rangeReplace : Option RangeInfo := none
  nextSuggestionID : String := ""
  bindingID : List Char := []
  shouldRemoveLeadingEol : Bool := false
deriving Repr, DecidableEq

/-- The success response body built from a suggestion record plus the
advertised next-suggestion identifier (empty when there is none). -/
def respFor (s : Suggestion) (nid : String) : WireResponse :=
  { suggestion := s.text, error := "", rangeReplace := s.range,
    nextSuggestionID := nid, bindingID := s.bindingID,
    shouldRemoveLeadingEol := s.shouldRemoveLeadingEol }

/-- A bound on how much of the stream one `parseNextSuggestion` call can leave
unconsumed; used for termination of the loops that drive it. -/
def parseLenLe : ∀ (cs : List Chunk) (e : Option String) (cur : Option Suggestion),
    ((parseNextSuggestion cs e cur).2).length ≤ cs.length := by
  intro cs
  induction cs with
  | nil =>
    intro e cur
    cases e <;> simp [parseNextSuggestion]
  | cons c cs ih =>
    intro e cur
    simp only [parseNextSuggestion]
    by_cases h1 : isTrue c.doneEdit = true
    · rw [if_pos h1]
      cases feedChunk cur c <;> simp
    · rw [if_neg h1]
      by_cases h2 : isTrue c.doneStream = true
      · rw [if_pos h2]; simp
      · rw [if_neg h2]
        exact le_trans (ih e _) (Nat.le_succ _)

/-- Lemma: `parseNextSuggestion` always consumes the chunk it starts on. -/
def parseLenLt : ∀ (c : Chunk) (cs : List Chunk) (e : Option String)
    (cur : Option Suggestion),
    ((parseNextSuggestion (c :: cs) e cur).2).length ≤ cs.length := by
  intro c cs e cur
  simp only [parseNextSuggestion]
  by_cases h1 : isTrue c.doneEdit = true
  · rw [if_pos h1]
    cases feedChunk cur c <;> simp
  · rw [if_neg h1]
    by_cases h2 : isTrue c.doneStream = true
    · rw [if_pos h2]
    · rw [if_neg h2]
      exact parseLenLe cs e _

/-- Function `storeRemainingSuggestions`: repeatedly decode a suggestion, peek one
chunk to learn whether another one follows (generating its identifier if so),
and insert the decoded record — with its forward link — into the store.
Returns the ordered event trace of the run and the number of uuid draws
consumed so far; a decode error or the modelled nil-dereference panic (which
the deferred `recover` turns into task exit) ends the trace. -/
def storeRemain (uuids : Nat → String) (chunks : List Chunk) (e : Option String)
    (curID : String) (n : Nat) : List Event × Nat :=
  match h : parseNextSuggestion chunks e none with
  | (ParseOutcome.ok (some s), rest) =>
    match rest with
    | [] =>
      ([Event.putStore curID { s with nextSuggestionID := "" }], n)
    | c :: rest' =>
      if isTrue c.beginEdit then
        let nid := mkID (uuids n)
        let bg := storeRemain uuids rest' e nid (n + 1)
        (Event.genID nid ::
          Event.putStore curID { s with nextSuggestionID := nid } :: bg.1, bg.2)
      else
        ([Event.putStore curID { s with nextSuggestionID := "" }], n)
  | (ParseOutcome.ok none, _) => ([], n)
  | (ParseOutcome.err _, _) => ([], n)
  | (ParseOutcome.panicNil, _) => ([], n)
termination_by chunks.length
decreasing_by
  have hle := parseLenLe chunks e none
  rw [h] at hle
  simp at hle
  omega

/-- The observable result of one `handleNewSuggestion` request, with its
background task (when spawned) run to completion. -/
structure RunResult where
  response : Option WireResponse
  spawned : Bool
  events : List Event
  store : Store
  counter : Nat
deriving Repr, DecidableEq

/-- Handler `handleNewSuggestion` from the point where the upstream stream is open:
decode the first suggestion (errors become inline error payloads, the modelled
nil-dereference panic aborts the handler with no response), report
`"no suggestion returned"` on an empty stream, then peek one chunk; a
begin-marker generates a fresh identifier, advertises it as
`nextSuggestionID` and hands the rest of the stream to the background task,
anything else answers with the first suggestion alone. -/
def runRequest (uuids : Nat → String) (n : Nat) (chunks : List Chunk)
    (e : Option String) (st : Store) : RunResult :=
  match parseNextSuggestion chunks e none with
  | (ParseOutcome.err m, _) =>
    { response := some { error := m }, spawned := false, events := [],
      store := st, counter := n }
  | (ParseOutcome.panicNil, _) =>
    { response := none, spawned := false, events := [], store := st, counter := n }
  | (ParseOutcome.ok none, _) =>
    { response := some { error := "no suggestion returned" }, spawned := false,
      events := [], store := st, counter := n }
  | (ParseOutcome.ok (some first), rest) =>
    match rest with
    | [] =>
      { response := some (respFor first ""), spawned := false, events := [],
        store := st, counter := n }
    | c :: rest' =>
      if isTrue c.beginEdit then
        let nid := mkID (uuids n)
        let bg := storeRemain uuids rest' e nid (n + 1)
        let evs := Event.genID nid :: bg.1
        { response := some (respFor first nid), spawned := true, events := evs,
          store := applyEvents st evs, counter := bg.2 }
      else
        { response := some (respFor first ""), spawned := false, events := [],
          store := st, counter := n }

/-- Handler `handleGetSuggestion`: look the identifier up in the store; absent (or
empty) identifiers answer with an inline error, present ones are returned and
deleted. -/
def handleGetSuggestion (st : Store) (id : String) : WireResponse × Store :=
  if id = "" then ({ error := "suggestion ID required" }, st)
  else
    match Store.get st id with
    | none => ({ error := "suggestion not found" }, st)
    | some s => (respFor s s.nextSuggestionID, Store.del st id)

/-- Drive `parseNextSuggestion` repeatedly (as the orchestrator and background
task together do), collecting the completed suggestions until the decoder
reports end of stream, an error, or the modelled panic. -/
def decodeAll (cs : List Chunk) (e : Option String) : List Suggestion × ParseOutcome :=
  match h : parseNextSuggestion cs e none with
  | (ParseOutcome.ok (some s), rest) =>
    let p := decodeAll rest e
    (s :: p.1, p.2)
  | (ParseOutcome.ok none, _) => ([], ParseOutcome.ok none)
  | (ParseOutcome.err m, _) => ([], ParseOutcome.err m)
  | (ParseOutcome.panicNil, _) => ([], ParseOutcome.panicNil)
termination_by cs.length
decreasing_by
  cases cs with
  | nil => cases e <;> simp [parseNextSuggestion] at h
  | cons c cs' =>
    have hle := parseLenLt c cs' e none
    rw [h] at hle
    simp only [List.length_cons] at hle ⊢
    omega

/-- The suggestion record one well-formed edit unit (its fragment chunks,
excluding the final done-edit marker) decodes to. -/
def decodeUnit (u : List Chunk) : Suggestion :=
  stripIfNeeded ((u.foldl feedChunk none).getD {})

/-- Concatenation of an edit unit's text fragments in arrival order. -/
def unitText (u : List Chunk) : List Char := (u.map Chunk.text).flatten

/-- The spec's description of leading-EOL stripping: remove exactly one
leading newline when the flag is set and one is present, otherwise leave the
text unchanged. -/
def stripLeading (flag : Bool) (t : List Char) : List Char :=
  if flag then
    match t with
    | c :: r => if c = '\n' then r else t
    | [] => t
  else t

/-- A pure-text fragment chunk. -/
def sampleText (t : List Char) : Chunk := { text := t }

/-- A range chunk carrying the remove-leading-eol flag. -/
def sampleRange (f : Bool) : Chunk :=
  { rangeToReplace := some { startLineNumber := 1, endLineNumberInclusive := 2 },
    shouldRemoveLeadingEol := some f }

/-- The record `sampleRange` alone decodes to. -/
def sampleRangeInfo : RangeInfo :=
  { startLine := 1, startColumn := 0, endLine := 2, endColumn := -1 }

/-- Wire encoding of the second and later edit units: each is preceded by a
begin-marker, [begin u₂ done begin u₃ done … begin uₙ done doneStream]. -/
def encodeTail : List (List Chunk) → List Chunk
  | [] => [doneStreamChunk]
  | u :: us => beginChunk :: (u ++ doneEditChunk :: encodeTail us)

/-- Wire encoding of a whole well-formed stream of edit units: units
separated by begin-markers and terminated by a done-stream marker. -/
def encodeUnits : List (List Chunk) → List Chunk
  | [] => [doneStreamChunk]
  | u :: us => u ++ doneEditChunk :: encodeTail us

/-- The stream remainder handed to the background task, already positioned
past the peeked begin-marker of its first unit. -/
def encodeRest : List (List Chunk) → List Chunk
  | [] => []
  | u :: us => u ++ doneEditChunk :: encodeTail us

/-- Set a suggestion record's forward link. -/
def withNext (s : Suggestion) (nid : String) : Suggestion :=
  { s with nextSuggestionID := nid }

/-- The expected event trace of the background task on the encoded remaining
units: for every unit except the last, generate the next unit's identifier
and store the current record linked to it; store the last record with an
empty link. -/
def chainEvents (uuids : Nat → String) : List (List Chunk) → String → Nat → List Event
  | [], _, _ => []
  | [u], curID, _ => [Event.putStore curID (withNext (decodeUnit u) "")]
  | u :: u2 :: us, curID, n =>
    Event.genID (mkID (uuids n)) ::
      Event.putStore curID (withNext (decodeUnit u) (mkID (uuids n))) ::
      chainEvents uuids (u2 :: us) (mkID (uuids n)) (n + 1)

/-- The store insertions of `chainEvents`, in order. -/
def chainPuts (uuids : Nat → String) : List (List Chunk) → String → Nat →
    List (String × Suggestion)
  | [], _, _ => []
  | [u], curID, _ => [(curID, withNext (decodeUnit u) "")]
  | u :: u2 :: us, curID, n =>
    (curID, withNext (decodeUnit u) (mkID (uuids n))) ::
      chainPuts uuids (u2 :: us) (mkID (uuids n)) (n + 1)

/-- Project the store insertions out of an event trace, in order. -/
def putsOf (evs : List Event) : List (String × Suggestion) :=
  evs.filterMap fun ev =>
    match ev with
    | Event.genID _ => none
    | Event.putStore id s => some (id, s)

/-- What the decoder returns at a done-edit marker, as a function of the
in-progress suggestion: the nil-dereference panic when none exists, otherwise
the record with its leading newline stripped when requested. -/
def finishOutcome : Option Suggestion → ParseOutcome
  | none => ParseOutcome.panicNil
  | some s => ParseOutcome.ok (some (stripIfNeeded s))

/- ## Theorems -/

theorem parse_plain_step (c : Chunk) (cs : List Chunk) (e : Option String)
    (cur : Option Suggestion) (hc : isPlainB c = true) :
    parseNextSuggestion (c :: cs) e cur = parseNextSuggestion cs e (feedChunk cur c) := by
  simp only [isPlainB, Bool.and_eq_true, Bool.not_eq_true'] at hc
  simp only [parseNextSuggestion, hc.1, hc.2, Bool.false_eq_true, if_false]

theorem parse_doneEdit_head (rest : List Chunk) (e : Option String)
    (cur : Option Suggestion) :
    parseNextSuggestion (doneEditChunk :: rest) e cur = (finishOutcome cur, rest) := by
  cases cur <;> rfl

theorem parse_doneStream_head (rest : List Chunk) (e : Option String)
    (cur : Option Suggestion) :
    parseNextSuggestion (doneStreamChunk :: rest) e cur = (ParseOutcome.ok none, rest) := by
  cases cur <;> rfl

/-- Decoding a unit's fragments followed by a done-edit marker folds the
fragments into the in-progress suggestion and finishes it, leaving the rest
of the stream untouched. -/
theorem parse_plain_append (frags : List Chunk)
    (hf : ∀ c ∈ frags, isPlainB c = true) (e : Option String)
    (cur : Option Suggestion) (rest : List Chunk) :
    parseNextSuggestion (frags ++ doneEditChunk :: rest) e cur =
      (finishOutcome (frags.foldl feedChunk cur), rest) := by
  induction frags generalizing cur with
  | nil => simpa using parse_doneEdit_head rest e cur
  | cons c cs ih =>
    rw [List.cons_append,
      parse_plain_step c _ e cur (hf c (List.mem_cons_self c cs))]
    exact ih (fun d hd => hf d (List.mem_cons_of_mem c hd)) (feedChunk cur c)

/-- A marker-free stream that simply runs out: a transport error is
propagated, a clean close hands back whatever was accumulated. -/
theorem parse_no_marker (frags : List Chunk)
    (hf : ∀ c ∈ frags, isPlainB c = true) (e : Option String)
    (cur : Option Suggestion) :
    parseNextSuggestion frags e cur =
      (match e with
       | some msg => ParseOutcome.err ("stream error: " ++ msg)
       | none => ParseOutcome.ok (frags.foldl feedChunk cur), []) := by
  induction frags generalizing cur with
  | nil => cases e <;> rfl
  | cons c cs ih =>
    rw [parse_plain_step c _ e cur (hf c (List.mem_cons_self c cs))]
    exact ih (fun d hd => hf d (List.mem_cons_of_mem c hd)) (feedChunk cur c)

theorem feed_text (cur : Option Suggestion) (c : Chunk) :
    ((feedChunk cur c).getD {}).text = ((cur.getD {}).text) ++ c.text := by
  cases cur <;>
    cases hr : c.rangeToReplace <;>
      cases hb : c.bindingId <;>
        cases hfl : c.shouldRemoveLeadingEol <;>
          by_cases ht : c.text = [] <;>
            simp [feedChunk, applyRange, applyText, hr, hb, hfl, ht]

theorem fold_text (u : List Chunk) :
    ∀ cur : Option Suggestion,
      ((u.foldl feedChunk cur).getD {}).text = ((cur.getD {}).text) ++ unitText u := by
  induction u with
  | nil => intro cur; simp [unitText]
  | cons c cs ih =>
    intro cur
    simp only [List.foldl_cons, unitText, List.map_cons, List.flatten_cons]
    rw [ih (feedChunk cur c), feed_text]
    simp [unitText, List.append_assoc]

theorem strip_text (s : Suggestion) :
    (stripIfNeeded s).text = stripLeading s.shouldRemoveLeadingEol s.text := by
  obtain ⟨t, rng, b, f, nx⟩ := s
  cases f with
  | false => rfl
  | true =>
    cases t with
    | nil => rfl
    | cons a r =>
      by_cases ha : a = '\n' <;>
        simp [stripIfNeeded, stripLeading, ha]

/-- The text of a decoded unit is the concatenation of its fragments with the
code's leading-newline treatment applied. -/
theorem decodeUnit_text (u : List Chunk) :
    (decodeUnit u).text =
      stripLeading ((u.foldl feedChunk none).getD {}).shouldRemoveLeadingEol (unitText u) := by
  have ht := fold_text u none
  simp only [Option.getD_none] at ht
  rw [decodeUnit, strip_text]
  simp only [ht]
  rfl

theorem decodeAll_step (cs : List Chunk) (e : Option String) (s : Suggestion)
    (rest : List Chunk)
    (h : parseNextSuggestion cs e none = (ParseOutcome.ok (some s), rest)) :
    decodeAll cs e = (s :: (decodeAll rest e).1, (decodeAll rest e).2) := by
  rw [decodeAll]
  split
  next s' rest' h' =>
    rw [h] at h'
    simp only [Prod.mk.injEq, ParseOutcome.ok.injEq, Option.some.injEq] at h'
    rw [h'.1, h'.2]
  next h' => rw [h] at h'; simp at h'
  next m h' => rw [h] at h'; simp at h'
  next h' => rw [h] at h'; simp at h'

theorem decodeAll_end (cs : List Chunk) (e : Option String) (rest : List Chunk)
    (h : parseNextSuggestion cs e none = (ParseOutcome.ok none, rest)) :
    decodeAll cs e = ([], ParseOutcome.ok none) := by
  rw [decodeAll]
  split
  next s' rest' h' => rw [h] at h'; simp at h'
  next h' => rfl
  next m h' => rw [h] at h'; simp at h'
  next h' => rw [h] at h'; simp at h'

/-- Decoding the encoded tail (begin-marker, unit, done-edit, …) yields
exactly the remaining units' records and then a clean end of stream. -/
theorem decodeAll_tail (us : List (List Chunk))
    (hp : ∀ u ∈ us, ∀ c ∈ u, isPlainB c = true)
    (hn : ∀ u ∈ us, u.foldl feedChunk none ≠ none) :
    decodeAll (encodeTail us) none = (us.map decodeUnit, ParseOutcome.ok none) := by
  induction us with
  | nil =>
    exact decodeAll_end _ none [] (parse_doneStream_head [] none none)
  | cons u us ih =>
    have hpu : ∀ c ∈ beginChunk :: u, isPlainB c = true := by
      intro c hc
      rcases List.mem_cons.mp hc with h | h
      · subst h; rfl
      · exact hp u (List.mem_cons_self u us) c h
    have hfold : (beginChunk :: u).foldl feedChunk none = u.foldl feedChunk none := by
      simp only [List.foldl_cons]
      rfl
    obtain ⟨s0, hs0⟩ := Option.ne_none_iff_exists'.mp (hn u (List.mem_cons_self u us))
    have hparse : parseNextSuggestion (encodeTail (u :: us)) none none =
        (ParseOutcome.ok (some (stripIfNeeded s0)), encodeTail us) := by
      have := parse_plain_append (beginChunk :: u) hpu none none (encodeTail us)
      rw [encodeTail]
      simpa [hfold, hs0, finishOutcome] using this
    rw [decodeAll_step _ none _ _ hparse,
      ih (fun v hv => hp v (List.mem_cons_of_mem u hv))
         (fun v hv => hn v (List.mem_cons_of_mem u hv))]
    simp [decodeUnit, hs0]

/-- Decoding a whole encoded stream yields exactly the units' records and
then a clean end of stream. -/
theorem decodeAll_units (us : List (List Chunk))
    (hp : ∀ u ∈ us, ∀ c ∈ u, isPlainB c = true)
    (hn : ∀ u ∈ us, u.foldl feedChunk none ≠ none) :
    decodeAll (encodeUnits us) none = (us.map decodeUnit, ParseOutcome.ok none) := by
  cases us with
  | nil => exact decodeAll_end _ none [] (parse_doneStream_head [] none none)
  | cons u us =>
    obtain ⟨s0, hs0⟩ := Option.ne_none_iff_exists'.mp (hn u (List.mem_cons_self u us))
    have hparse : parseNextSuggestion (encodeUnits (u :: us)) none none =
        (ParseOutcome.ok (some (stripIfNeeded s0)), encodeTail us) := by
      have := parse_plain_append u (hp u (List.mem_cons_self u us)) none none (encodeTail us)
      rw [encodeUnits]
      simpa [hs0, finishOutcome] using this
    rw [decodeAll_step _ none _ _ hparse,
      decodeAll_tail us (fun v hv => hp v (List.mem_cons_of_mem u hv))
        (fun v hv => hn v (List.mem_cons_of_mem u hv))]
    simp [decodeUnit, hs0]

/-- C1.  Decode round-trip with leading-EOL stripping: a well-formed stream of
N edit units (each unit a list of marker-free fragment chunks that allocate an
in-progress suggestion, units separated by begin-markers, stream terminated by
a done-stream marker) decodes, by repeated `parseNextSuggestion` calls, to
exactly the N unit records followed by a clean end of stream; each record's
text is the concatenation of the unit's text fragments in arrival order, with
exactly one leading newline removed when the unit's remove-leading-eol flag is
set and the text starts with a newline, and unchanged otherwise. -/
theorem decode_round_trip (us : List (List Chunk))
    (hp : ∀ u ∈ us, ∀ c ∈ u, isPlainB c = true)
    (hn : ∀ u ∈ us, u.foldl feedChunk none ≠ none) :
    decodeAll (encodeUnits us) none = (us.map decodeUnit, ParseOutcome.ok none) ∧
    ∀ u ∈ us, (decodeUnit u).text =
      stripLeading ((u.foldl feedChunk none).getD {}).shouldRemoveLeadingEol (unitText u) := by
  exact ⟨decodeAll_units us hp hn, fun u _ => decodeUnit_text u⟩

/-- Witness for C1 on a concrete two-unit stream, the second unit carrying the
remove-leading-eol flag and a leading newline. -/
theorem decode_round_trip_witness :
    decodeAll (encodeUnits [[sampleText ['a']],
        [sampleRange true, sampleText ['\n', 'b']]]) none =
      ([{ text := ['a'] },
        { text := ['b'], range := some sampleRangeInfo,
          shouldRemoveLeadingEol := true }], ParseOutcome.ok none) ∧
    ((decodeUnit [sampleRange true, sampleText ['\n', 'b']]).text = ['b'] ∧
      (decodeUnit [sampleText ['a']]).text = ['a']) := by
  have h := decode_round_trip [[sampleText ['a']],
    [sampleRange true, sampleText ['\n', 'b']]] (by decide) (by decide)
  refine ⟨?_, ?_, ?_⟩
  · rw [h.1]; decide
  · rw [h.2 _ (by simp)]; decide
  · rw [h.2 _ (by simp)]; decide

theorem get_del (st : Store) (id : String) :
    Store.get (Store.del st id) id = none := by
  induction st with
  | nil => rfl
  | cons p st ih =>
    by_cases hp : p.1 == id
    · simpa [Store.del, Store.get, hp] using ih
    · simp only [Store.del, List.filter_cons] at ih ⊢
      simp [Store.get, List.find?_cons, hp] at ih ⊢

/-- C2.  At-most-once delivery: when the identifier is present in the store,
the first `FetchSuggestion` answers with the stored record (its forward link
included) and deletes the entry, so an immediately repeated call finds
nothing, answers `"suggestion not found"`, and leaves the store unchanged. -/
theorem fetch_at_most_once (st : Store) (id : String) (s : Suggestion)
    (hid : id ≠ "") (h : Store.get st id = some s) :
    handleGetSuggestion st id = (respFor s s.nextSuggestionID, Store.del st id) ∧
    Store.get (Store.del st id) id = none ∧
    handleGetSuggestion (Store.del st id) id =
      ({ error := "suggestion not found" }, Store.del st id) := by
  refine ⟨?_, get_del st id, ?_⟩
  · unfold handleGetSuggestion
    rw [if_neg hid, h]
  · unfold handleGetSuggestion
    rw [if_neg hid, get_del st id]

/-- Witness for C2 on a one-entry store. -/
theorem fetch_at_most_once_witness :
    handleGetSuggestion [("sugg_w", { text := ['x'] })] "sugg_w" =
      (respFor { text := ['x'] } "", Store.del [("sugg_w", { text := ['x'] })] "sugg_w") ∧
    Store.get (Store.del [("sugg_w", { text := ['x'] })] "sugg_w") "sugg_w" = none ∧
    handleGetSuggestion (Store.del [("sugg_w", { text := ['x'] })] "sugg_w") "sugg_w" =
      ({ error := "suggestion not found" },
        Store.del [("sugg_w", { text := ['x'] })] "sugg_w") :=
  fetch_at_most_once [("sugg_w", { text := ['x'] })] "sugg_w" { text := ['x'] }
    (by decide) (by decide)

/-- C4 as stated is false: when the transport closes cleanly (`Receive`
returns false with a nil or `io.EOF` error) before any terminal marker,
`parseNextSuggestion` does not report a failure — here it returns the partial
accumulated suggestion as a normal result. -/
theorem truncated_stream_counterexample :
    (∀ c ∈ [sampleText ['a', 'b']], isPlainB c = true) ∧
    parseNextSuggestion [sampleText ['a', 'b']] none none =
      (ParseOutcome.ok (some { text := ['a', 'b'] }), []) := by decide

/-- C4 amended: if the transport errors (a non-EOF `Err()`) before any
terminal marker, `parseNextSuggestion` propagates a transport-failure error;
but when the stream merely closes without a terminal marker it returns the
accumulated in-progress suggestion — possibly partial, possibly absent — as a
normal non-error result. -/
theorem truncated_stream_amended (frags : List Chunk)
    (hf : ∀ c ∈ frags, isPlainB c = true) :
    (∀ msg, parseNextSuggestion frags (some msg) none =
      (ParseOutcome.err ("stream error: " ++ msg), [])) ∧
    parseNextSuggestion frags none none =
      (ParseOutcome.ok (frags.foldl feedChunk none), []) := by
  constructor
  · intro msg
    exact parse_no_marker frags hf (some msg) none
  · exact parse_no_marker frags hf none none

/-- Witness for the amended C4. -/
theorem truncated_stream_amended_witness :
    parseNextSuggestion [sampleText ['a', 'b']] (some "boom") none =
      (ParseOutcome.err ("stream error: " ++ "boom"), []) ∧
    parseNextSuggestion [sampleText ['a', 'b']] none none =
      (ParseOutcome.ok ([sampleText ['a', 'b']].foldl feedChunk none), []) := by
  have h := truncated_stream_amended [sampleText ['a', 'b']] (by decide)
  exact ⟨h.1 "boom", h.2⟩

/-- C5: the claim matches the spec's stated intent, but the code crashes.  A
done-edit marker with no prior text fragment and no prior range chunk leaves
`currentSuggestion` nil, and the completion debug log dereferences it
(`len(currentSuggestion.Text)`), a nil-pointer panic — modelled as
`panicNil` — instead of returning an empty-text suggestion. -/
theorem empty_edit_unit_panics :
    parseNextSuggestion [doneEditChunk, doneStreamChunk] none none =
      (ParseOutcome.panicNil, [doneStreamChunk]) := by decide

/-- C7.  Empty-stream behavior: a stream consisting of just a done-stream
marker makes `RequestNewSuggestion` answer with the inline error payload
`"no suggestion returned"` — no crash, no store change, no background task. -/
theorem empty_stream_reports_no_suggestion (uuids : Nat → String) (n : Nat)
    (st : Store) :
    runRequest uuids n [doneStreamChunk] none st =
      { response := some { error := "no suggestion returned" }, spawned := false,
        events := [], store := st, counter := n } := rfl

/-- The orchestrator on an encoded single-unit stream: the peek sees the
done-stream marker, so the record is answered alone and nothing else
happens. -/
theorem runRequest_single (uuids : Nat → String) (n : Nat)
    (st : Store) (u : List Chunk) (hp : ∀ c ∈ u, isPlainB c = true)
    (hn : u.foldl feedChunk none ≠ none) :
    runRequest uuids n (encodeUnits [u]) none st =
      { response := some (respFor (decodeUnit u) ""), spawned := false,
        events := [], store := st, counter := n } := by
  obtain ⟨s0, hs0⟩ := Option.ne_none_iff_exists'.mp hn
  have hparse : parseNextSuggestion (encodeUnits [u]) none none =
      (ParseOutcome.ok (some (stripIfNeeded s0)), [doneStreamChunk]) := by
    have := parse_plain_append u hp none none [doneStreamChunk]
    rw [encodeUnits, encodeTail]
    simpa [hs0, finishOutcome] using this
  unfold runRequest
  rw [hparse]
  simp [isTrue, doneStreamChunk, decodeUnit, hs0]

/-- C6.  Single-suggestion short-circuit: one edit unit followed directly by a
done-stream marker produces a response with no `nextSuggestionID`, spawns no
background task, performs no store events, and leaves the store untouched. -/
theorem single_suggestion_short_circuit (uuids : Nat → String) (n : Nat)
    (st : Store) (u : List Chunk) (hp : ∀ c ∈ u, isPlainB c = true)
    (hn : u.foldl feedChunk none ≠ none) :
    runRequest uuids n (encodeUnits [u]) none st =
      { response := some (respFor (decodeUnit u) ""), spawned := false,
        events := [], store := st, counter := n } :=
  runRequest_single uuids n st u hp hn

/-- Witness for C6. -/
theorem single_suggestion_short_circuit_witness :
    runRequest (fun k => toString k) 0 (encodeUnits [[sampleText ['a']]]) none [] =
      { response := some (respFor (decodeUnit [sampleText ['a']]) ""), spawned := false,
        events := [], store := [], counter := 0 } :=
  single_suggestion_short_circuit (fun k => toString k) 0 [] [sampleText ['a']]
    (by decide) (by decide)

/-- One unfolding of the background loop after a successful decode: the peeked
chunk decides between generating the next identifier and continuing, and
storing the current record with an empty link and stopping. -/
theorem storeRemain_step (uuids : Nat → String) (chunks : List Chunk)
    (e : Option String) (curID : String) (n : Nat) (s : Suggestion) (c : Chunk)
    (rest' : List Chunk)
    (h : parseNextSuggestion chunks e none = (ParseOutcome.ok (some s), c :: rest')) :
    storeRemain uuids chunks e curID n =
      if isTrue c.beginEdit then
        (Event.genID (mkID (uuids n)) ::
          Event.putStore curID { s with nextSuggestionID := mkID (uuids n) } ::
          (storeRemain uuids rest' e (mkID (uuids n)) (n + 1)).1,
         (storeRemain uuids rest' e (mkID (uuids n)) (n + 1)).2)
      else ([Event.putStore curID { s with nextSuggestionID := "" }], n) := by
  rw [storeRemain]
  split
  next s' rest2 h' =>
    rw [h] at h'
    simp only [Prod.mk.injEq, ParseOutcome.ok.injEq, Option.some.injEq] at h'
    obtain ⟨hs, hr⟩ := h'
    subst hs
    subst hr
    rfl
  next h' => rw [h] at h'; simp at h'
  next m h' => rw [h] at h'; simp at h'
  next h' => rw [h] at h'; simp at h'

/-- The background loop on the encoded remaining units produces exactly the
expected chain event trace and consumes one uuid draw per link. -/
theorem storeRemain_encode (uuids : Nat → String) :
    ∀ (us : List (List Chunk)) (curID : String) (n : Nat), us ≠ [] →
      (∀ u ∈ us, ∀ c ∈ u, isPlainB c = true) →
      (∀ u ∈ us, u.foldl feedChunk none ≠ none) →
      storeRemain uuids (encodeRest us) none curID n =
        (chainEvents uuids us curID n, n + (us.length - 1)) := by
  intro us
  induction us with
  | nil => intro curID n hne; exact absurd rfl hne
  | cons u us ih =>
    intro curID n _ hp hn
    obtain ⟨s0, hs0⟩ := Option.ne_none_iff_exists'.mp (hn u (List.mem_cons_self u us))
    cases us with
    | nil =>
      have hparse : parseNextSuggestion (encodeRest [u]) none none =
          (ParseOutcome.ok (some (stripIfNeeded s0)), doneStreamChunk :: []) := by
        have := parse_plain_append u (hp u (List.mem_cons_self u [])) none none
          (encodeTail [])
        rw [encodeRest, encodeTail]
        simpa [hs0, finishOutcome] using this
      rw [storeRemain_step uuids _ none curID n _ _ _ hparse]
      simp [isTrue, doneStreamChunk, chainEvents, withNext, decodeUnit, hs0]
    | cons u2 us2 =>
      have hparse : parseNextSuggestion (encodeRest (u :: u2 :: us2)) none none =
          (ParseOutcome.ok (some (stripIfNeeded s0)),
            beginChunk :: encodeRest (u2 :: us2)) := by
        have := parse_plain_append u (hp u (List.mem_cons_self u (u2 :: us2))) none none
          (encodeTail (u2 :: us2))
        rw [encodeRest, encodeTail]
        simpa [encodeRest, hs0, finishOutcome] using this
      rw [storeRemain_step uuids _ none curID n _ _ _ hparse]
      rw [if_pos (by decide : isTrue beginChunk.beginEdit = true)]
      rw [ih (mkID (uuids n)) (n + 1) (by simp)
        (fun v hv => hp v (List.mem_cons_of_mem u hv))
        (fun v hv => hn v (List.mem_cons_of_mem u hv))]
      simp only [chainEvents, withNext, decodeUnit, hs0, Option.getD_some,
        List.length_cons, Prod.mk.injEq]
      constructor
      · trivial
      · omega

/-- The orchestrator on an encoded stream of at least two units: the first
record is answered synchronously with a freshly generated `nextSuggestionID`,
and the spawned background task contributes the chain event trace. -/
theorem runRequest_multi (uuids : Nat → String) (n : Nat) (st : Store)
    (u : List Chunk) (us' : List (List Chunk)) (hus : us' ≠ [])
    (hp : ∀ v ∈ u :: us', ∀ c ∈ v, isPlainB c = true)
    (hn : ∀ v ∈ u :: us', v.foldl feedChunk none ≠ none) :
    runRequest uuids n (encodeUnits (u :: us')) none st =
      { response := some (respFor (decodeUnit u) (mkID (uuids n))),
        spawned := true,
        events := Event.genID (mkID (uuids n)) ::
          chainEvents uuids us' (mkID (uuids n)) (n + 1),
        store := applyEvents st (Event.genID (mkID (uuids n)) ::
          chainEvents uuids us' (mkID (uuids n)) (n + 1)),
        counter := n + us'.length } := by
  obtain ⟨s0, hs0⟩ := Option.ne_none_iff_exists'.mp (hn u (List.mem_cons_self u us'))
  obtain ⟨v, vs, rfl⟩ := List.exists_cons_of_ne_nil hus
  have hparse : parseNextSuggestion (encodeUnits (u :: v :: vs)) none none =
      (ParseOutcome.ok (some (stripIfNeeded s0)),
        beginChunk :: encodeRest (v :: vs)) := by
    have := parse_plain_append u (hp u (List.mem_cons_self u (v :: vs))) none none
      (encodeTail (v :: vs))
    rw [encodeUnits, encodeTail]
    simpa [encodeRest, hs0, finishOutcome] using this
  unfold runRequest
  rw [hparse]
  simp only []
  rw [if_pos (by decide : isTrue beginChunk.beginEdit = true)]
  rw [storeRemain_encode uuids (v :: vs) (mkID (uuids n)) (n + 1) (by simp)
    (fun w hw => hp w (List.mem_cons_of_mem u hw))
    (fun w hw => hn w (List.mem_cons_of_mem u hw))]
  simp only [decodeUnit, hs0, Option.getD_some, List.length_cons]
  have hcnt : n + 1 + (vs.length + 1 - 1) = n + (vs.length + 1) := by omega
  rw [hcnt]

theorem putsOf_chainEvents (uuids : Nat → String) :
    ∀ (us : List (List Chunk)) (curID : String) (n : Nat),
      putsOf (chainEvents uuids us curID n) = chainPuts uuids us curID n := by
  intro us
  induction us with
  | nil => intro curID n; rfl
  | cons u us ih =>
    intro curID n
    cases us with
    | nil => rfl
    | cons u2 us2 =>
      simp only [chainEvents, chainPuts, putsOf, List.filterMap_cons]
      simpa [putsOf] using ih (mkID (uuids n)) (n + 1)

theorem chainPuts_length (uuids : Nat → String) :
    ∀ (us : List (List Chunk)) (curID : String) (n : Nat),
      (chainPuts uuids us curID n).length = us.length := by
  intro us
  induction us with
  | nil => intro curID n; rfl
  | cons u us ih =>
    intro curID n
    cases us with
    | nil => rfl
    | cons u2 us2 => simpa [chainPuts] using ih (mkID (uuids n)) (n + 1)

theorem chainPuts_head_key (uuids : Nat → String) (u : List Chunk)
    (us : List (List Chunk)) (curID : String) (n : Nat) :
    ∀ p, (chainPuts uuids (u :: us) curID n)[0]? = some p → p.1 = curID := by
  intro p hp
  cases us <;> simp [chainPuts] at hp <;> simp [← hp]

/-- Adjacent records in the chain are linked: each stored record's
`nextSuggestionID` is the key the next record is stored under. -/
theorem chainPuts_link (uuids : Nat → String) :
    ∀ (us : List (List Chunk)) (curID : String) (n : Nat) (i : Nat)
      (pi pj : String × Suggestion),
      (chainPuts uuids us curID n)[i]? = some pi →
      (chainPuts uuids us curID n)[i + 1]? = some pj →
      pi.2.nextSuggestionID = pj.1 := by
  intro us
  induction us with
  | nil => intro curID n i pi pj hi _; simp [chainPuts] at hi
  | cons u us ih =>
    intro curID n i pi pj hi hj
    cases us with
    | nil =>
      simp [chainPuts] at hi hj
    | cons u2 us2 =>
      cases i with
      | zero =>
        simp only [chainPuts, List.getElem?_cons_zero, Option.some.injEq] at hi
        have hj0 : (chainPuts uuids (u2 :: us2) (mkID (uuids n)) (n + 1))[0]? =
            some pj := by
          simpa [chainPuts] using hj
        have := chainPuts_head_key uuids u2 us2 (mkID (uuids n)) (n + 1) pj hj0
        rw [← hi]
        simp [withNext, this]
      | succ i' =>
        apply ih (mkID (uuids n)) (n + 1) i' pi pj
        · simpa [chainPuts] using hi
        · simpa [chainPuts] using hj

/-- The last record of the chain carries an empty forward link. -/
theorem chainPuts_last (uuids : Nat → String) :
    ∀ (us : List (List Chunk)) (curID : String) (n : Nat)
      (pl : String × Suggestion),
      (chainPuts uuids us curID n).getLast? = some pl →
      pl.2.nextSuggestionID = "" := by
  intro us
  induction us with
  | nil => intro curID n pl h; simp [chainPuts] at h
  | cons u us ih =>
    intro curID n pl h
    cases us with
    | nil =>
      simp [chainPuts, List.getLast?] at h
      simp [← h, withNext]
    | cons u2 us2 =>
      apply ih (mkID (uuids n)) (n + 1)
      have hcons : ∃ q qs, chainPuts uuids (u2 :: us2) (mkID (uuids n)) (n + 1) =
          q :: qs := by
        cases us2 <;> exact ⟨_, _, rfl⟩
      obtain ⟨q, qs, hq⟩ := hcons
      rw [chainPuts, hq, List.getLast?_cons_cons] at h
      rw [hq]
      exact h

/-- C3.  Chain integrity: on a request decoding N = 1 + K suggestions (K ≥ 1),
the response's `nextSuggestionID` is the key the first stored record is
inserted under, each of the K stored records' `nextSuggestionID` is the key
the following record is inserted under, and the last record's link is empty;
exactly K = N - 1 records are inserted. -/
theorem chain_integrity (uuids : Nat → String) (n : Nat) (st : Store)
    (u : List Chunk) (us' : List (List Chunk)) (hus : us' ≠ [])
    (hp : ∀ v ∈ u :: us', ∀ c ∈ v, isPlainB c = true)
    (hn : ∀ v ∈ u :: us', v.foldl feedChunk none ≠ none) :
    (putsOf (runRequest uuids n (encodeUnits (u :: us')) none st).events).length + 1 =
      (u :: us').length ∧
    (runRequest uuids n (encodeUnits (u :: us')) none st).response =
      some (respFor (decodeUnit u) (mkID (uuids n))) ∧
    (∀ p0, (putsOf (runRequest uuids n (encodeUnits (u :: us')) none st).events)[0]? =
        some p0 → p0.1 = mkID (uuids n)) ∧
    (∀ i pi pj,
      (putsOf (runRequest uuids n (encodeUnits (u :: us')) none st).events)[i]? = some pi →
      (putsOf (runRequest uuids n (encodeUnits (u :: us')) none st).events)[i + 1]? = some pj →
      pi.2.nextSuggestionID = pj.1) ∧
    (∀ pl, (putsOf (runRequest uuids n (encodeUnits (u :: us')) none st).events).getLast? =
        some pl → pl.2.nextSuggestionID = "") := by
  rw [runRequest_multi uuids n st u us' hus hp hn]
  have hputs : putsOf (Event.genID (mkID (uuids n)) ::
      chainEvents uuids us' (mkID (uuids n)) (n + 1)) =
      chainPuts uuids us' (mkID (uuids n)) (n + 1) := by
    simp only [putsOf, List.filterMap_cons]
    exact putsOf_chainEvents uuids us' (mkID (uuids n)) (n + 1)
  simp only [hputs]
  refine ⟨?_, ?_, ?_, ?_, ?_⟩
  · simp [chainPuts_length]
  · trivial
  · obtain ⟨v, vs, rfl⟩ := List.exists_cons_of_ne_nil hus
    exact chainPuts_head_key uuids v vs (mkID (uuids n)) (n + 1)
  · exact chainPuts_link uuids us' (mkID (uuids n)) (n + 1)
  · exact chainPuts_last uuids us' (mkID (uuids n)) (n + 1)

/-- Witness for C3 on a concrete three-unit stream. -/
theorem chain_integrity_witness :
    (putsOf (runRequest (fun k => toString k) 0
      (encodeUnits [[sampleText ['a']], [sampleText ['b']], [sampleText ['c']]]) none
      []).events).length + 1 =
      ([[sampleText ['a']], [sampleText ['b']], [sampleText ['c']]] :
        List (List Chunk)).length ∧
    (runRequest (fun k => toString k) 0
      (encodeUnits [[sampleText ['a']], [sampleText ['b']], [sampleText ['c']]]) none
      []).response =
      some (respFor (decodeUnit [sampleText ['a']]) (mkID (toString 0))) ∧
    (∀ p0, (putsOf (runRequest (fun k => toString k) 0
      (encodeUnits [[sampleText ['a']], [sampleText ['b']], [sampleText ['c']]]) none
      []).events)[0]? = some p0 → p0.1 = mkID (toString 0)) ∧
    (∀ i pi pj,
      (putsOf (runRequest (fun k => toString k) 0
        (encodeUnits [[sampleText ['a']], [sampleText ['b']], [sampleText ['c']]]) none
        []).events)[i]? = some pi →
      (putsOf (runRequest (fun k => toString k) 0
        (encodeUnits [[sampleText ['a']], [sampleText ['b']], [sampleText ['c']]]) none
        []).events)[i + 1]? = some pj →
      pi.2.nextSuggestionID = pj.1) ∧
    (∀ pl, (putsOf (runRequest (fun k => toString k) 0
      (encodeUnits [[sampleText ['a']], [sampleText ['b']], [sampleText ['c']]]) none
      []).events).getLast? = some pl → pl.2.nextSuggestionID = "") :=
  chain_integrity (fun k => toString k) 0 [] [sampleText ['a']]
    [[sampleText ['b']], [sampleText ['c']]] (by decide) (by decide) (by decide)

theorem chainEvents_head_put_mem (uuids : Nat → String) (u : List Chunk)
    (us : List (List Chunk)) (curID : String) (n : Nat)
    (p : String × Suggestion)
    (hp : (chainPuts uuids (u :: us) curID n)[0]? = some p) :
    Event.putStore p.1 p.2 ∈ chainEvents uuids (u :: us) curID n := by
  cases us <;> simp [chainPuts] at hp <;> simp [chainEvents, ← hp]

/-- Within the chain event trace, the identifier of record i+1 is generated
strictly before record i is stored, and record i+1 is stored strictly after
record i. -/
theorem chainEvents_split (uuids : Nat → String) :
    ∀ (us : List (List Chunk)) (curID : String) (n i : Nat)
      (pi pj : String × Suggestion),
      (chainPuts uuids us curID n)[i]? = some pi →
      (chainPuts uuids us curID n)[i + 1]? = some pj →
      ∃ pre mid post, chainEvents uuids us curID n =
        pre ++ Event.genID pj.1 :: (mid ++ Event.putStore pi.1 pi.2 :: post) ∧
        Event.putStore pj.1 pj.2 ∈ post := by
  intro us
  induction us with
  | nil => intro curID n i pi pj hi _; simp [chainPuts] at hi
  | cons u us ih =>
    intro curID n i pi pj hi hj
    cases us with
    | nil => simp [chainPuts] at hi hj
    | cons u2 us2 =>
      cases i with
      | zero =>
        simp only [chainPuts, List.getElem?_cons_zero, Option.some.injEq] at hi
        have hj0 : (chainPuts uuids (u2 :: us2) (mkID (uuids n)) (n + 1))[0]? =
            some pj := by
          simpa [chainPuts] using hj
        have hkey := chainPuts_head_key uuids u2 us2 (mkID (uuids n)) (n + 1) pj hj0
        refine ⟨[], [], chainEvents uuids (u2 :: us2) (mkID (uuids n)) (n + 1), ?_, ?_⟩
        · rw [← hi]
          simp [chainEvents, hkey]
        · exact chainEvents_head_put_mem uuids u2 us2 _ _ pj hj0
      | succ i' =>
        obtain ⟨pre, mid, post, heq, hmem⟩ := ih (mkID (uuids n)) (n + 1) i' pi pj
          (by simpa [chainPuts] using hi) (by simpa [chainPuts] using hj)
        refine ⟨Event.genID (mkID (uuids n)) ::
          Event.putStore curID (withNext (decodeUnit u) (mkID (uuids n))) :: pre,
          mid, post, ?_, hmem⟩
        simp [chainEvents, heq]

/-- C9.  Within-chain store ordering: in the single-producer event trace of
one request, for any two consecutive stored records i and i+1 of the chain,
record i+1's identifier is generated strictly before record i (carrying that
identifier as its link) is inserted, and record i+1 is inserted strictly
after record i — so a record is only fetchable once its predecessor, link
included, is already in the store. -/
theorem chain_store_ordering (uuids : Nat → String) (n : Nat) (st : Store)
    (u : List Chunk) (us' : List (List Chunk)) (hus : us' ≠ [])
    (hp : ∀ v ∈ u :: us', ∀ c ∈ v, isPlainB c = true)
    (hn : ∀ v ∈ u :: us', v.foldl feedChunk none ≠ none) :
    ∀ i pi pj,
      (putsOf (runRequest uuids n (encodeUnits (u :: us')) none st).events)[i]? =
        some pi →
      (putsOf (runRequest uuids n (encodeUnits (u :: us')) none st).events)[i + 1]? =
        some pj →
      ∃ pre mid post,
        (runRequest uuids n (encodeUnits (u :: us')) none st).events =
          pre ++ Event.genID pj.1 :: (mid ++ Event.putStore pi.1 pi.2 :: post) ∧
        Event.putStore pj.1 pj.2 ∈ post := by
  rw [runRequest_multi uuids n st u us' hus hp hn]
  have hputs : putsOf (Event.genID (mkID (uuids n)) ::
      chainEvents uuids us' (mkID (uuids n)) (n + 1)) =
      chainPuts uuids us' (mkID (uuids n)) (n + 1) := by
    simp only [putsOf, List.filterMap_cons]
    exact putsOf_chainEvents uuids us' (mkID (uuids n)) (n + 1)
  simp only [hputs]
  intro i pi pj hi hj
  obtain ⟨pre, mid, post, heq, hmem⟩ :=
    chainEvents_split uuids us' (mkID (uuids n)) (n + 1) i pi pj hi hj
  refine ⟨Event.genID (mkID (uuids n)) :: pre, mid, post, ?_, hmem⟩
  simp [heq]

/-- Witness for C9 on a concrete three-unit stream, at the first pair of
stored records. -/
theorem chain_store_ordering_witness :
    ∃ pre mid post,
      (runRequest (fun k => toString k) 0
        (encodeUnits [[sampleText ['a']], [sampleText ['b']], [sampleText ['c']]]) none
        []).events =
        pre ++ Event.genID "sugg_1" ::
          (mid ++ Event.putStore "sugg_0"
            { text := ['b'], nextSuggestionID := "sugg_1" } :: post) ∧
      Event.putStore "sugg_1" { text := ['c'] } ∈ post := by
  have hr := runRequest_multi (fun k => toString k) 0 [] [sampleText ['a']]
    [[sampleText ['b']], [sampleText ['c']]] (by decide) (by decide) (by decide)
  exact chain_store_ordering (fun k => toString k) 0 [] [sampleText ['a']]
    [[sampleText ['b']], [sampleText ['c']]] (by decide) (by decide) (by decide)
    0 ("sugg_0", { text := ['b'], nextSuggestionID := "sugg_1" })
    ("sugg_1", { text := ['c'] })
    (by rw [hr]; rfl) (by rw [hr]; rfl)

theorem strip_next (s : Suggestion) :
    (stripIfNeeded s).nextSuggestionID = s.nextSuggestionID := by
  obtain ⟨t, rng, b, f, nx⟩ := s
  cases f with
  | false => rfl
  | true =>
    cases t with
    | nil => rfl
    | cons a r =>
      by_cases ha : a = '\n' <;> simp [stripIfNeeded, ha]

theorem feed_next (cur : Option Suggestion) (c : Chunk) :
    ((feedChunk cur c).getD {}).nextSuggestionID = (cur.getD {}).nextSuggestionID := by
  cases cur <;>
    cases hr : c.rangeToReplace <;>
      cases hb : c.bindingId <;>
        cases hfl : c.shouldRemoveLeadingEol <;>
          by_cases ht : c.text = [] <;>
            simp [feedChunk, applyRange, applyText, hr, hb, hfl, ht]

theorem fold_next (u : List Chunk) :
    ∀ cur : Option Suggestion,
      ((u.foldl feedChunk cur).getD {}).nextSuggestionID =
        (cur.getD {}).nextSuggestionID := by
  induction u with
  | nil => intro cur; rfl
  | cons c cs ih =>
    intro cur
    rw [List.foldl_cons, ih (feedChunk cur c), feed_next]

/-- The decoder never sets a forward link; `storeRemainingSuggestions` alone
fills it in. -/
theorem decodeUnit_next (u : List Chunk) : (decodeUnit u).nextSuggestionID = "" := by
  rw [decodeUnit, strip_next]
  simpa using fold_next u none

theorem withNext_self (s : Suggestion) (h : s.nextSuggestionID = "") :
    withNext s "" = s := by
  obtain ⟨t, rng, b, f, nx⟩ := s
  simp only [withNext]
  simp_all

/-- Forgetting the forward links of the stored chain records recovers exactly
the decoded units. -/
theorem chainPuts_map_clear (uuids : Nat → String) :
    ∀ (us : List (List Chunk)) (curID : String) (n : Nat),
      (chainPuts uuids us curID n).map (fun p => withNext p.2 "") =
        us.map decodeUnit := by
  intro us
  induction us with
  | nil => intro curID n; rfl
  | cons u us ih =>
    intro curID n
    cases us with
    | nil =>
      simp [chainPuts, withNext_self (decodeUnit u) (decodeUnit_next u)]
    | cons u2 us2 =>
      simp only [chainPuts, List.map_cons, List.map]
      rw [ih (mkID (uuids n)) (n + 1)]
      have : withNext (withNext (decodeUnit u) (mkID (uuids n))) "" =
          decodeUnit u := withNext_self (decodeUnit u) (decodeUnit_next u)
      simp [this]

/-- C10.  First suggestion is never stored: the first decoded record is
delivered only in the synchronous response; the store insertions of the whole
request are exactly the second and later records (their forward links aside),
and the final store is the initial store plus only those insertions — so
`FetchSuggestion` can never return a chain's first suggestion. -/
theorem first_suggestion_never_stored (uuids : Nat → String) (n : Nat) (st : Store)
    (u : List Chunk) (us' : List (List Chunk))
    (hp : ∀ v ∈ u :: us', ∀ c ∈ v, isPlainB c = true)
    (hn : ∀ v ∈ u :: us', v.foldl feedChunk none ≠ none) :
    (∃ resp, (runRequest uuids n (encodeUnits (u :: us')) none st).response =
        some resp ∧
      resp.suggestion = (decodeUnit u).text ∧
      resp.rangeReplace = (decodeUnit u).range) ∧
    (putsOf (runRequest uuids n (encodeUnits (u :: us')) none st).events).map
      (fun p => withNext p.2 "") = us'.map decodeUnit ∧
    (runRequest uuids n (encodeUnits (u :: us')) none st).store =
      applyEvents st (runRequest uuids n (encodeUnits (u :: us')) none st).events := by
  cases us' with
  | nil =>
    rw [runRequest_single uuids n st u
      (hp u (List.mem_cons_self u [])) (hn u (List.mem_cons_self u []))]
    exact ⟨⟨respFor (decodeUnit u) "", rfl, rfl, rfl⟩, rfl, rfl⟩
  | cons v vs =>
    rw [runRequest_multi uuids n st u (v :: vs) (by simp) hp hn]
    refine ⟨⟨respFor (decodeUnit u) (mkID (uuids n)), rfl, rfl, rfl⟩, ?_, rfl⟩
    have hputs : putsOf (Event.genID (mkID (uuids n)) ::
        chainEvents uuids (v :: vs) (mkID (uuids n)) (n + 1)) =
        chainPuts uuids (v :: vs) (mkID (uuids n)) (n + 1) := by
      simp only [putsOf, List.filterMap_cons]
      exact putsOf_chainEvents uuids (v :: vs) (mkID (uuids n)) (n + 1)
    simp only [hputs]
    exact chainPuts_map_clear uuids (v :: vs) (mkID (uuids n)) (n + 1)

/-- Witness for C10 on a concrete two-unit stream. -/
theorem first_suggestion_never_stored_witness :
    (∃ resp, (runRequest (fun k => toString k) 0
        (encodeUnits [[sampleText ['a']], [sampleText ['b']]]) none []).response =
        some resp ∧
      resp.suggestion = (decodeUnit [sampleText ['a']]).text ∧
      resp.rangeReplace = (decodeUnit [sampleText ['a']]).range) ∧
    (putsOf (runRequest (fun k => toString k) 0
      (encodeUnits [[sampleText ['a']], [sampleText ['b']]]) none []).events).map
      (fun p => withNext p.2 "") = [[sampleText ['b']]].map decodeUnit ∧
    (runRequest (fun k => toString k) 0
      (encodeUnits [[sampleText ['a']], [sampleText ['b']]]) none []).store =
      applyEvents [] (runRequest (fun k => toString k) 0
        (encodeUnits [[sampleText ['a']], [sampleText ['b']]]) none []).events :=
  first_suggestion_never_stored (fun k => toString k) 0 [] [sampleText ['a']]
    [[sampleText ['b']]] (by decide) (by decide)

end CursorTab
